import Mathlib

/-!
Shallow embedding of the vuescrape repository.

Covered source: the VictoriaMetrics wire codec (`vmclient`: `Series`,
`Metric`, `Sample` and their marshal/unmarshal functions), the downstream
query-result shapes and the resume-point logic of `exportHistory`
(`main.go`), the batching loop of `exportHistory`, the Emporia Vue history
paginator `Client.GetHistory` and the `Scale` tables (`vueclient`), and the
watcher-notifying `Atom` holder.

Modelling conventions, fixed once for the whole file:
* Go `map[string]string` is modelled as an association list kept in strictly
  increasing key order (the canonical representative of the unordered Go
  map); `nil` maps are `Option.none`, non-nil maps `Option.some`.
* Go `time.Time` is an `Int` of nanoseconds since the Unix epoch (Go's
  internal resolution); `time.Duration` is an `Int` of nanoseconds.
  `t.UnixMilli()` floors to milliseconds; `time.UnixMilli`/`time.Unix`
  scale back up.  The zero `time.Time` used by `GetHistory` is modelled as
  `Option.none`.
* `float64` sample values are modelled as `ℚ`: the columnar codec copies
  values verbatim, and the scalar codec parses decimal strings exactly.
* JSON byte-level (de)serialization by `encoding/json` is abstracted: codec
  functions work on the structured documents the JSON maps to.
-/

/-! ## Canonical string-keyed maps (model of Go `map[string]string`) -/

/-- Byte-wise strict ordering on character lists; orders the canonical map
representation. -/
def charListLt : List Char → List Char → Bool
  | [], [] => false
  | [], _ :: _ => true
  | _ :: _, [] => false
  | a :: as, b :: bs => if a = b then charListLt as bs else decide (a.toNat < b.toNat)

/-- Strict ordering on map keys. -/
def keyLt (a b : String) : Bool := charListLt a.data b.data

/-- Map lookup (`m[k]`, with presence flag via `Option`). -/
def lookupL {α : Type} : List (String × α) → String → Option α
  | [], _ => none
  | (a, v) :: rest, k => if k = a then some v else lookupL rest k

/-- Map update (`m[k] = v`), keeping the canonical key order. -/
def insertL {α : Type} : List (String × α) → String → α → List (String × α)
  | [], k, v => [(k, v)]
  | (a, b) :: rest, k, v =>
    if keyLt k a then (k, v) :: (a, b) :: rest
    else if k = a then (k, v) :: rest
    else (a, b) :: insertL rest k v

/-- Key removal (`delete(m, k)`). -/
def eraseL {α : Type} (l : List (String × α)) (k : String) : List (String × α) :=
  l.filter (fun p => p.1 ≠ k)

/-- `maps.Copy(base, l)`: copy every entry of `l` into `base`, overwriting. -/
def insertAll {α : Type} (base : List (String × α)) (l : List (String × α)) :
    List (String × α) :=
  l.foldl (fun m kv => insertL m kv.1 kv.2) base

/-- The canonical-map invariant: keys strictly increasing. -/
def sortedKeys {α : Type} : List (String × α) → Bool
  | [] => true
  | [_] => true
  | a :: b :: rest => keyLt a.1 b.1 && sortedKeys (b :: rest)

/-! ## vmclient: wire codec data model (`Series`, `Metric`, `Sample`) -/

/-- `t.UnixMilli()`: milliseconds since epoch, flooring the nanosecond instant. -/
def unixMilli (t : Int) : Int := Int.fdiv t 1000000

/-- `time.UnixMilli(ms)`: the instant at `ms` epoch milliseconds. -/
def timeUnixMilli (ms : Int) : Int := ms * 1000000

/-- `time.Unix(sec, 0)`: the instant at `sec` epoch seconds. -/
def timeUnix (sec : Int) : Int := sec * 1000000000

/-- Go `int64(x)` conversion of a `float64`: truncation toward zero. -/
def truncInt (q : ℚ) : Int := Int.tdiv q.num q.den

/-- `vmclient.Metric`: metric identity, a name plus a (possibly nil) label map. -/
structure Metric where
  Name : String
  Labels : Option (List (String × String))
deriving DecidableEq

/-- `vmclient.Sample`: one value/timestamp pair (timestamp in nanoseconds). -/
structure Sample where
  Value : ℚ
  Timestamp : Int
deriving DecidableEq

/-- `vmclient.Series`: a metric plus its ordered samples. -/
structure Series where
  metric : Metric
  Samples : List Sample
deriving DecidableEq

/-- The columnar JSON-line document (`jseries` in the source): the `metric`
object decoded as a map, plus the parallel `values`/`timestamps` arrays. -/
structure jseries where
  metric : List (String × String)
  Values : List ℚ
  Timestamps : List Int
deriving DecidableEq

/-- `Metric.MarshalJSON`: `val := map[string]string{"__name__": m.Name};
maps.Copy(val, m.Labels)`. -/
def Metric.MarshalJSON (m : Metric) : List (String × String) :=
  insertAll (insertL [] "__name__" m.Name) (m.Labels.getD [])

/-- `Metric.UnmarshalJSON`: extract `__name__` as the name (zero value `""`
when absent), delete it, and keep the rest as labels — `nil` when empty. -/
def Metric.UnmarshalJSON (data : List (String × String)) : Metric :=
  let labels := eraseL data "__name__"
  { Name := (lookupL data "__name__").getD ""
    Labels := if labels.length > 0 then some labels else none }

/-- `Series.MarshalJSON`: emit values and floored-to-milliseconds timestamps
positionally from the samples. -/
def Series.MarshalJSON (s : Series) : jseries :=
  { metric := s.metric.MarshalJSON
    Values := s.Samples.map (·.Value)
    Timestamps := s.Samples.map (fun smp => unixMilli smp.Timestamp) }

/-- Outcome of running an unmarshal function: a value, a returned decode
error, or a runtime panic. -/
inductive DecodeResult (α : Type) where
  | ok (val : α)
  | error (msg : String)
  | panicked
deriving DecidableEq

/-- The sample-reconstruction loop of `Series.UnmarshalJSON`: iterate over
`values`, indexing `timestamps[i]`; running past the end of `timestamps` is
an index-out-of-range panic (`none`). -/
def zipSamples : List ℚ → List Int → Option (List Sample)
  | [], _ => some []
  | _ :: _, [] => none
  | v :: vs, t :: ts =>
    (zipSamples vs ts).map (fun rest => { Value := v, Timestamp := timeUnixMilli t } :: rest)

/-- `Series.UnmarshalJSON`: decode the metric, then rebuild samples pairwise
from the `values` and `timestamps` arrays (no length check in the source). -/
def Series.UnmarshalJSON (doc : jseries) : DecodeResult Series :=
  match zipSamples doc.Values doc.Timestamps with
  | none => .panicked
  | some smps => .ok { metric := Metric.UnmarshalJSON doc.metric, Samples := smps }

/-- Normalization stated by the spec for the round trip: an empty label
mapping becomes a nil label mapping. -/
def normalizeLabels : Option (List (String × String)) → Option (List (String × String))
  | some [] => none
  | x => x

/-- A `Series` with its label mapping normalized as the spec's round-trip
property states. -/
def normalizeSeries (s : Series) : Series :=
  { s with metric := { s.metric with Labels := normalizeLabels s.metric.Labels } }

/-! ## vmclient: scalar single-sample decoder (`Sample.UnmarshalJSON`) -/

/-- A JSON array element as decoded by `json.Unmarshal` into `[]any`:
numbers arrive as `float64`, strings as `string`; every other shape
(bool, null, array, object) fails both type assertions in the source and is
collapsed into `other`. -/
inductive JAny where
  | num (q : ℚ)
  | str (s : String)
  | other
deriving DecidableEq

/-- The (possibly non-finite) value of a successful `strconv.ParseFloat`:
finite values are exact rationals, and the special results `NaN` and `±Inf`
are separate constructors since they have no rational value. -/
inductive GoFloat where
  | finite (q : ℚ)
  | nan
  | inf (neg : Bool)
deriving DecidableEq

/-- Go `lower(c)`: force the ASCII lowercase bit (`c | 0x20`). -/
def lowerC (c : Char) : Char := Char.ofNat (c.toNat ||| 32)

/-- `strconv.commonPrefixLenIgnoreCase`: the length of the common prefix of
`s` and the already-lowercase `prefix`, uppercasing A–Z in `s` before
comparing. -/
def commonPrefixLenIgnoreCase : List Char → List Char → Nat
  | _, [] => 0
  | [], _ => 0
  | c :: cs, d :: ds =>
    if (if 'A' ≤ c ∧ c ≤ 'Z' then Char.ofNat (c.toNat + 32) else c) = d then
      1 + commonPrefixLenIgnoreCase cs ds
    else 0

/-- `strconv.special`: recognize `NaN` and (possibly signed) `Inf` /
`Infinity`, ignoring case, returning the value and the number of characters
consumed.  After a sign the source falls through to the infinity check
only, so a signed `NaN` is not special. -/
def special (s : List Char) : Option (GoFloat × Nat) :=
  match s with
  | [] => none
  | c :: rest =>
    if c = '+' ∨ c = '-' then
      let n := commonPrefixLenIgnoreCase rest ['i', 'n', 'f', 'i', 'n', 'i', 't', 'y']
      if n = 3 ∨ n = 8 then some (.inf (c = '-'), 1 + n) else none
    else if c = 'i' ∨ c = 'I' then
      let n := commonPrefixLenIgnoreCase s ['i', 'n', 'f', 'i', 'n', 'i', 't', 'y']
      if n = 3 ∨ n = 8 then some (.inf false, n) else none
    else if c = 'n' ∨ c = 'N' then
      if commonPrefixLenIgnoreCase s ['n', 'a', 'n'] = 3 then some (.nan, 3) else none
    else none

/-- The walker of `strconv.underscoreOK`: `saw` is the class of the last
character seen (`^` start of number, `0` digit or base prefix, `_`
underscore, `!` anything else). -/
def underscoreWalk (hex : Bool) : Char → List Char → Bool
  | saw, [] => decide (saw ≠ '_')
  | saw, c :: rest =>
    if ('0' ≤ c ∧ c ≤ '9') ∨ (hex ∧ 'a' ≤ lowerC c ∧ lowerC c ≤ 'f') then
      underscoreWalk hex '0' rest
    else if c = '_' then
      if saw = '0' then underscoreWalk hex '_' rest else false
    else if saw = '_' then false
    else underscoreWalk hex '!' rest

/-- `strconv.underscoreOK`: underscores may appear only between digits, or
between a base prefix and a digit. -/
def underscoreOK (s : List Char) : Bool :=
  let s1 := match s with
    | c :: rest => if c = '-' ∨ c = '+' then rest else s
    | [] => s
  match s1 with
  | '0' :: x :: rest =>
    if lowerC x = 'x' then underscoreWalk true '0' rest
    else underscoreWalk false '^' s1
  | _ => underscoreWalk false '^' s1

/-- Value of one mantissa digit (decimal or hexadecimal). -/
def digitVal (c : Char) : Nat :=
  if '0' ≤ c ∧ c ≤ '9' then c.toNat - 48 else (lowerC c).toNat - 87

/-- The mantissa loop of `strconv.readFloat`: consume digits (hexadecimal
under a base prefix), underscores and at most one decimal point,
accumulating the digits exactly and counting those after the point.
Returns `(mantissa, fraction digits, saw digits, saw underscores, rest)`. -/
def mantLoop (base16 : Bool) :
    List Char → ℕ → ℕ → Bool → Bool → Bool → ℕ × ℕ × Bool × Bool × List Char
  | [], mant, nfrac, _, sawdigits, usc => (mant, nfrac, sawdigits, usc, [])
  | c :: rest, mant, nfrac, sawdot, sawdigits, usc =>
    if c = '_' then mantLoop base16 rest mant nfrac sawdot sawdigits true
    else if c = '.' then
      if sawdot then (mant, nfrac, sawdigits, usc, c :: rest)
      else mantLoop base16 rest mant nfrac true sawdigits usc
    else if ('0' ≤ c ∧ c ≤ '9') ∨ (base16 ∧ 'a' ≤ lowerC c ∧ lowerC c ≤ 'f') then
      mantLoop base16 rest (mant * (if base16 then 16 else 10) + digitVal c)
        (if sawdot then nfrac + 1 else nfrac) sawdot true usc
    else (mant, nfrac, sawdigits, usc, c :: rest)

/-- The exponent-digit loop of `readFloat`: digits and underscores. -/
def expLoop : List Char → ℕ → Bool → ℕ × Bool × List Char
  | [], e, usc => (e, usc, [])
  | c :: rest, e, usc =>
    if '0' ≤ c ∧ c ≤ '9' then expLoop rest (e * 10 + (c.toNat - 48)) usc
    else if c = '_' then expLoop rest e true
    else (e, usc, c :: rest)

/-- The optional-exponent step of `readFloat`: after the exponent marker an
optional sign must be followed immediately by a digit.  `none` is a syntax
failure; `some (none, ...)` means no exponent marker was present. -/
def readExp (expChar : Char) (cs : List Char) (usc : Bool) :
    Option (Option Int × Bool × List Char) :=
  match cs with
  | [] => some (none, usc, [])
  | c :: rest =>
    if lowerC c = expChar then
      let sg : Bool × List Char :=
        match rest with
        | '+' :: r => (false, r)
        | '-' :: r => (true, r)
        | r => (false, r)
      match sg.2 with
      | d :: _ =>
        if '0' ≤ d ∧ d ≤ '9' then
          match expLoop sg.2 0 usc with
          | (e, usc2, rest2) =>
            some (some (if sg.1 then -(e : Int) else (e : Int)), usc2, rest2)
        else none
      | [] => none
    else some (none, usc, cs)

/-- `strconv.ParseFloat(s, 64)`, modelled structurally on the strconv
source: the special forms `NaN`/`Inf`/`Infinity` first, then `readFloat`'s
grammar — optional sign, optional `0x`/`0X` prefix, a mantissa of digits
(hexadecimal under the prefix) with at most one dot and at least one digit,
an optional `e`/`E` exponent (mandatory `p`/`P` exponent in hexadecimal),
underscores validated by `underscoreOK`, and full consumption of the
string.  Finite values are exact rationals: IEEE 754 rounding, the 19-digit
mantissa truncation (which only affects rounding), and the `ErrRange`
overflow/underflow errors on syntactically valid input are idealized
away. -/
def parseFloat (s : String) : Option GoFloat :=
  match special s.data with
  | some (v, n) => if n = s.data.length then some v else none
  | none =>
    let sg : Bool × List Char :=
      match s.data with
      | '+' :: r => (false, r)
      | '-' :: r => (true, r)
      | r => (false, r)
    let pre : Bool × List Char :=
      match sg.2 with
      | '0' :: x :: r => if lowerC x = 'x' then (true, r) else (false, sg.2)
      | _ => (false, sg.2)
    match mantLoop pre.1 pre.2 0 0 false false false with
    | (mant, nfrac, sawdigits, usc, rest) =>
      if ¬ sawdigits then none
      else
        match readExp (if pre.1 then 'p' else 'e') rest usc with
        | none => none
        | some (eopt, usc2, rest2) =>
          if pre.1 ∧ eopt = none then none
          else if rest2 ≠ [] then none
          else if usc2 ∧ ¬ underscoreOK s.data then none
          else
            let e : Int := eopt.getD 0
            let q : ℚ :=
              (mant : ℚ) / (if pre.1 then (16 : ℚ) else 10) ^ nfrac *
                (if pre.1 then (2 : ℚ) else 10) ^ e
            some (.finite (if sg.1 then -q else q))

/-- Outcome of the scalar decoder.  The source stores the parsed `float64`
into `Sample.Value` and returns nil; since the `Sample` model carries
exact rationals, a successful parse of the non-finite specials (`NaN`,
`±Inf`) is kept as the separate success constructor `okNonFinite` — a
success of the decoder, not an error. -/
inductive ScalarResult where
  | ok (s : Sample)
  | okNonFinite (timestamp : Int) (v : GoFloat)
  | error (msg : String)
deriving DecidableEq

/-- `Sample.UnmarshalJSON`: the scalar 2-element form
`[timestamp-in-epoch-seconds, stringified-value]`.  Checks, in source order:
array length exactly 2, element 0 a number, element 1 a string accepted by
`strconv.ParseFloat`. -/
def Sample.UnmarshalJSON (doc : List JAny) : ScalarResult :=
  match doc with
  | [e0, e1] =>
    match e0 with
    | .num ts =>
      match e1 with
      | .str val =>
        match parseFloat val with
        | some (.finite v) => .ok { Value := v, Timestamp := timeUnix (truncInt ts) }
        | some v => .okNonFinite (timeUnix (truncInt ts)) v
        | none => .error "sample value was not a float"
      | _ => .error "sample value was not a string"
    | _ => .error "sample timestamp was not an number"
  | _ => .error "sample: expected array of len=2"

/-! ## Resume-point resolution (`exportHistory`, first half) -/

/-- A `vmclient.Client.Query` outcome: `*Sample` for scalars, `[]Series`
for vectors, and the error return — `matrix`, `string` and unrecognized
result types hit `Query`'s default case (`result type unsupported`), and
transport or decode failures also return an error. -/
inductive QueryResult where
  | scalar (s : Sample)
  | vector (series : List Series)
  | error (msg : String)
deriving DecidableEq

/-- The resume-point step of `exportHistory`, including its error
propagation: a query error is returned as-is (`if err != nil { return
err }`), aborting the channel's export; if the query produced exactly one
series with exactly one sample, `since` advances to
`time.Unix(int64(sample.Value), 0).Add(d)` when that instant is after
`since`; in every other case `since` is returned unchanged. -/
def resolveSince (since : Int) (d : Int) (existing : QueryResult) : Except String Int :=
  match existing with
  | .error msg => .error msg
  | .vector series =>
    match series with
    | [s0] =>
      match s0.Samples with
      | [sample] =>
        let lastSample := timeUnix (truncInt sample.Value) + d
        .ok (if since < lastSample then lastSample else since)
      | _ => .ok since
    | _ => .ok since
  | .scalar _ => .ok since

/-! ## vueclient: scales, channels, paginator -/

/-- `vueclient.Scale` is a string type. -/
abbrev Scale := String

def Scale1Second : Scale := "1S"
def Scale1Minute : Scale := "1MIN"
def Scale1Hour : Scale := "1H"
def Scale1Day : Scale := "1D"
def Scale1Week : Scale := "1W"
def Scale1Month : Scale := "1MON"
def Sscale1Year : Scale := "1Y"

/-- `scaleDurations`: bucket duration per scale, in nanoseconds.  Month and
year are absent in the source. -/
def scaleDurations : List (Scale × Int) :=
  [(Scale1Second, 1000000000),
   (Scale1Minute, 60 * 1000000000),
   (Scale1Hour, 3600 * 1000000000),
   (Scale1Day, 24 * 3600 * 1000000000),
   (Scale1Week, 7 * 24 * 3600 * 1000000000)]

/-- `scalePageSize`: maximum span of one `getChartUsage` request, in
nanoseconds.  Day, week, month and year are absent in the source. -/
def scalePageSize : List (Scale × Int) :=
  [(Scale1Second, 4000 * 1000000000),
   (Scale1Minute, 800 * 60 * 1000000000),
   (Scale1Hour, 800 * 3600 * 1000000000)]

/-- Outcome of a function that either returns a value or panics fatally:
the `fatal` constructor models Go `panic`, which unwinds rather than
returning a recoverable `error`. -/
inductive FatalOr (α : Type) where
  | val (a : α)
  | fatal (msg : String)
deriving DecidableEq

/-- `Scale.Duration`: table lookup; panics on a scale without a known
duration. -/
def Scale.Duration (s : Scale) : FatalOr Int :=
  match lookupL scaleDurations s with
  | some d => .val d
  | none => .fatal ("Unknown duration for scale " ++ s)

/-- `Scale.PageSize`: table lookup; panics on a scale without a known page
size. -/
def Scale.PageSize (s : Scale) : FatalOr Int :=
  match lookupL scalePageSize s with
  | some d => .val d
  | none => .fatal ("Unknown scale page size for scale " ++ s)

/-- `vueclient.Channel`. -/
structure Channel where
  Name : String
  DeviceGID : Int
  ChannelNum : String
  ChannelMultiplier : ℚ

/-- The `vmclient.Metric` that `exportHistory` builds for a channel.  The
source computes `name := ch.Name; if name == "" { name = "__total__" }` and
then builds the label map from `ch.Name`; the substituted `name` local is
never read again, and that dead computation is kept here as `_name`. -/
def exportMetric (ch : Channel) (scale : Scale) : Metric :=
  let _name : String := if ch.Name = "" then "__total__" else ch.Name
  { Name := "vue_kwh"
    Labels := some (insertAll []
      [("dev_gid", toString ch.DeviceGID),
       ("chan", ch.ChannelNum),
       ("name", ch.Name),
       ("chan_mult", toString ch.ChannelMultiplier),
       ("scale", scale)]) }

/-- The batching loop of `exportHistory` over the fetched slots: walk the
slots advancing the timestamp cursor by one scale duration per slot, skip
`nil` slots, buffer the rest into the growing series, push and clear the
buffer whenever its length exceeds 1000, and finally push any non-empty
remainder.  Returns the pushed batches in order and the new-sample count
`c`. -/
def exportLoop (d : Int) :
    List (Option ℚ) → Int → List Sample → List (List Sample) → Nat →
    List (List Sample) × Nat
  | [], _, buf, pushes, c => (if buf.length > 0 then pushes ++ [buf] else pushes, c)
  | s :: found, start, buf, pushes, c =>
    match s with
    | none => exportLoop d found (start + d) buf pushes c
    | some v =>
      let buf' := buf ++ [{ Value := v, Timestamp := start }]
      if buf'.length > 1000 then exportLoop d found (start + d) [] (pushes ++ [buf']) (c + 1)
      else exportLoop d found (start + d) buf' pushes (c + 1)

/-- The sizes of the batches pushed by one run of the export loop, starting
from an empty buffer. -/
def flushSizes (d : Int) (found : List (Option ℚ)) (since : Int) : List Nat :=
  ((exportLoop d found since [] [] 0).1).map List.length

/-- Size-level mirror of `exportLoop` (`true` = non-nil slot): tracks only
the buffer length and the pushed batch sizes. -/
def sizeLoop : List Bool → Nat → List Nat → List Nat
  | [], k, acc => if k > 0 then acc ++ [k] else acc
  | b :: rest, k, acc =>
    if b then
      if k + 1 > 1000 then sizeLoop rest 0 (acc ++ [k + 1])
      else sizeLoop rest (k + 1) acc
    else sizeLoop rest k acc

/-- A single `GetHistoryPage` call, abstracted: given the page's start and
end it yields the page's reported first-sample instant (`none` models the
zero `time.Time`) and its slot array.  Claims about the paginator quantify
over this oracle; a page error aborts `GetHistory` and is outside the
successful runs the claims describe. -/
abbrev PageFn := Int → Int → Option Int × List (Option ℚ)

/-- The loop of `Client.GetHistory`, with an explicit fuel bound modelling
loop termination (`none` = the loop did not finish within `fuel`
iterations): while `start ≠ end`, clamp the page end to
`start + PageSize` when `end` lies beyond it, fetch the page, keep the
first non-zero first-sample instant, append the slots, record the request,
and advance the cursor to the page end. -/
def GetHistoryF (page : PageFn) (P : Int) :
    Nat → Int → Int → Option Int → List (Option ℚ) → List (Int × Int) →
    Option (Option Int × List (Option ℚ) × List (Int × Int))
  | 0, start, end_, inst, samples, reqs =>
    if start = end_ then some (inst, samples, reqs) else none
  | fuel + 1, start, end_, inst, samples, reqs =>
    if start = end_ then some (inst, samples, reqs)
    else
      let pageEnd := if end_ > start + P then start + P else end_
      let pres := page start pageEnd
      GetHistoryF page P fuel pageEnd end_
        (if inst.isNone then pres.1 else inst)
        (samples ++ pres.2) (reqs ++ [(start, pageEnd)])

/-- `Client.GetHistory` for the interval `[start, end)` with page size `P`;
the request log is ghost instrumentation recording the page boundaries in
issue order. -/
def GetHistory (page : PageFn) (P start end_ : Int) :
    Option (Option Int × List (Option ℚ) × List (Int × Int)) :=
  GetHistoryF page P (end_ - start).toNat start end_ none [] []

/-- Specification-side page decomposition of `[start, end)` under page size
`P`: the successive `[cursor, min(end, cursor+P))` windows. -/
def pagesF (P : Int) : Nat → Int → Int → List (Int × Int)
  | 0, _, _ => []
  | fuel + 1, start, end_ =>
    if start = end_ then []
    else
      let pageEnd := if end_ > start + P then start + P else end_
      (start, pageEnd) :: pagesF P fuel pageEnd end_

/-- The page windows `GetHistory` issues for `[start, end)`. -/
def pages (P start end_ : Int) : List (Int × Int) :=
  pagesF P (end_ - start).toNat start end_

/-- Concatenation, in request order, of the slot arrays the oracle returns
for the given page windows. -/
def pageSamples (page : PageFn) (l : List (Int × Int)) : List (Option ℚ) :=
  (l.map (fun r => (page r.1 r.2).2)).flatten

/-- The first-sample anchors the oracle reports for the given page windows,
in request order. -/
def pageAnchors (page : PageFn) (l : List (Int × Int)) : List (Option Int) :=
  l.map (fun r => (page r.1 r.2).1)

/-- The page windows tile `[s, e)` contiguously: each window starts at the
cursor and the cursor ends at `e`. -/
def Chained : Int → Int → List (Int × Int) → Prop
  | s, e, [] => s = e
  | s, e, (a, b) :: rest => a = s ∧ Chained b e rest

/-! ## vueclient: the Atom holder -/

/-- `vueclient.Atom`: a value with registered watchers.  Watcher functions
are kept abstract (type `W`); invoking one is modelled as emitting the
`(watcher, old, new)` triple.  The mutex makes the three methods atomic;
the claims here describe their sequential semantics. -/
structure Atom (W T : Type) where
  v : T
  watchers : List W

/-- `Atom.Load`: fetch the current value. -/
def Atom.Load {W T : Type} (a : Atom W T) : T := a.v

/-- `Atom.Reset`: swap in the new value, invoke every registered watcher
with `(old, new)` in registration order, and return the old value. -/
def Atom.Reset {W T : Type} (a : Atom W T) (v : T) :
    T × Atom W T × List (W × T × T) :=
  (a.v, { a with v := v }, a.watchers.map (fun w => (w, a.v, v)))

/-- `Atom.Watch`: append a watcher. -/
def Atom.Watch {W T : Type} (a : Atom W T) (f : W) : Atom W T :=
  { a with watchers := a.watchers ++ [f] }

/-! ## Lemmas: the canonical map model -/

lemma char_toNat_inj {a b : Char} (h : a.toNat = b.toNat) : a = b := by
  rw [← Char.ofNat_toNat a, h, Char.ofNat_toNat]

lemma string_data_inj {a b : String} (h : a.data = b.data) : a = b := by
  cases a
  cases b
  exact congrArg String.mk h

lemma charListLt_irrefl : ∀ l : List Char, charListLt l l = false
  | [] => rfl
  | _ :: rest => by simp [charListLt, charListLt_irrefl rest]

lemma charListLt_trans :
    ∀ a b c : List Char, charListLt a b = true → charListLt b c = true →
      charListLt a c = true
  | [], [], _, h1, _ => by simp [charListLt] at h1
  | [], _ :: _, [], _, h2 => by simp [charListLt] at h2
  | [], _ :: _, _ :: _, _, _ => by simp [charListLt]
  | _ :: _, [], _, h1, _ => by simp [charListLt] at h1
  | _ :: _, _ :: _, [], _, h2 => by simp [charListLt] at h2
  | a :: as, b :: bs, c :: cs, h1, h2 => by
    simp only [charListLt] at h1 h2 ⊢
    by_cases hab : a = b
    · subst hab
      simp only [if_pos rfl] at h1
      by_cases hac : a = c
      · subst hac
        simp only [if_pos rfl] at h2 ⊢
        exact charListLt_trans as bs cs h1 h2
      · simp only [if_neg hac] at h2 ⊢
        exact h2
    · simp only [if_neg hab] at h1
      by_cases hbc : b = c
      · subst hbc
        simp only [if_neg hab]
        exact h1
      · simp only [if_neg hbc] at h2
        have hab' : a.toNat < b.toNat := of_decide_eq_true h1
        have hbc' : b.toNat < c.toNat := of_decide_eq_true h2
        have hac : a ≠ c := by
          intro h
          subst h
          omega
        simp only [if_neg hac]
        exact decide_eq_true (by omega)

lemma charListLt_connex :
    ∀ a b : List Char, charListLt a b = false → charListLt b a = false → a = b
  | [], [], _, _ => rfl
  | [], _ :: _, h1, _ => by simp [charListLt] at h1
  | _ :: _, [], _, h2 => by simp [charListLt] at h2
  | a :: as, b :: bs, h1, h2 => by
    simp only [charListLt] at h1 h2
    by_cases hab : a = b
    · subst hab
      simp only [if_pos rfl] at h1 h2
      rw [charListLt_connex as bs h1 h2]
    · have hba : ¬ b = a := fun h => hab h.symm
      simp only [if_neg hab] at h1
      simp only [if_neg hba] at h2
      have h1' : ¬ a.toNat < b.toNat := of_decide_eq_false h1
      have h2' : ¬ b.toNat < a.toNat := of_decide_eq_false h2
      exact absurd (char_toNat_inj (by omega)) hab

lemma keyLt_irrefl (k : String) : keyLt k k = false := charListLt_irrefl _

lemma keyLt_trans {a b c : String} (h1 : keyLt a b = true) (h2 : keyLt b c = true) :
    keyLt a c = true := charListLt_trans _ _ _ h1 h2

lemma keyLt_connex {a b : String} (h1 : keyLt a b = false) (h2 : keyLt b a = false) :
    a = b := string_data_inj (charListLt_connex _ _ h1 h2)

lemma keyLt_ne {a b : String} (h : keyLt a b = true) : a ≠ b := by
  intro he
  subst he
  rw [keyLt_irrefl] at h
  exact Bool.false_ne_true h

lemma keyLt_total {a b : String} (h1 : keyLt a b = false) (h2 : a ≠ b) :
    keyLt b a = true := by
  cases hba : keyLt b a with
  | true => rfl
  | false => exact absurd (keyLt_connex h1 hba) h2

/-- `sortedKeys` in pairwise form. -/
def SortedP {α : Type} (l : List (String × α)) : Prop :=
  List.Pairwise (fun p q => keyLt p.1 q.1 = true) l

lemma sortedKeys_iff_pairwise {α : Type} :
    ∀ l : List (String × α), sortedKeys l = true ↔ SortedP l
  | [] => by simp [sortedKeys, SortedP]
  | [a] => by simp [sortedKeys, SortedP]
  | a :: b :: rest => by
    rw [show sortedKeys (a :: b :: rest) = (keyLt a.1 b.1 && sortedKeys (b :: rest)) from rfl]
    rw [Bool.and_eq_true, sortedKeys_iff_pairwise (b :: rest)]
    constructor
    · rintro ⟨hab, hp⟩
      refine List.Pairwise.cons ?_ hp
      intro q hq
      rcases List.mem_cons.1 hq with h | h
      · subst h; exact hab
      · have hb := (List.pairwise_cons.1 hp).1 q h
        exact keyLt_trans hab hb
    · intro hp
      rcases List.pairwise_cons.1 hp with ⟨hhead, htail⟩
      exact ⟨hhead b (List.mem_cons_self b rest), htail⟩

lemma lookupL_eq_none {α : Type} :
    ∀ l : List (String × α), ∀ k : String, (∀ p ∈ l, k ≠ p.1) → lookupL l k = none
  | [], _, _ => rfl
  | (a, v) :: rest, k, h => by
    have hka : k ≠ a := h (a, v) (List.mem_cons_self _ _)
    simp only [lookupL, if_neg hka]
    exact lookupL_eq_none rest k (fun p hp => h p (List.mem_cons_of_mem _ hp))

lemma lookupL_insertL {α : Type} :
    ∀ (l : List (String × α)) (k v k'),
      lookupL (insertL l k v) k' = if k' = k then some v else lookupL l k'
  | [], k, v, k' => by simp [insertL, lookupL]
  | (a, b) :: rest, k, v, k' => by
    by_cases h1 : keyLt k a = true
    · by_cases h3 : k' = k <;> simp [insertL, h1, lookupL, h3]
    · by_cases h2 : k = a
      · subst h2
        by_cases h3 : k' = k <;> simp [insertL, h1, lookupL, h3]
      · by_cases h3 : k' = a
        · subst h3
          have hne : ¬ k' = k := fun h => h2 h.symm
          simp [insertL, h1, h2, lookupL, hne]
        · simp [insertL, h1, h2, lookupL, h3, lookupL_insertL rest k v k']

lemma mem_insertL {α : Type} :
    ∀ (l : List (String × α)) (k v p), p ∈ insertL l k v → p = (k, v) ∨ p ∈ l
  | [], k, v, p => by simp [insertL]
  | (a, b) :: rest, k, v, p => by
    simp only [insertL]
    by_cases h1 : keyLt k a
    · simp only [if_pos h1]
      intro hm
      rcases List.mem_cons.1 hm with h | h
      · exact Or.inl h
      · exact Or.inr h
    · simp only [if_neg h1]
      by_cases h2 : k = a
      · simp only [if_pos h2]
        intro hm
        rcases List.mem_cons.1 hm with h | h
        · exact Or.inl h
        · exact Or.inr (List.mem_cons_of_mem _ h)
      · simp only [if_neg h2]
        intro hm
        rcases List.mem_cons.1 hm with h | h
        · exact Or.inr (h ▸ List.mem_cons_self _ _)
        · rcases mem_insertL rest k v p h with h' | h'
          · exact Or.inl h'
          · exact Or.inr (List.mem_cons_of_mem _ h')

lemma sortedP_insertL {α : Type} :
    ∀ (l : List (String × α)) (k v), SortedP l → SortedP (insertL l k v)
  | [], k, v, _ => by simp [insertL, SortedP]
  | (a, b) :: rest, k, v, hs => by
    rcases List.pairwise_cons.1 hs with ⟨hhead, htail⟩
    simp only [insertL]
    by_cases h1 : keyLt k a
    · simp only [if_pos h1]
      refine List.Pairwise.cons ?_ hs
      intro q hq
      rcases List.mem_cons.1 hq with h | h
      · subst h; exact h1
      · exact keyLt_trans h1 (hhead q h)
    · simp only [if_neg h1]
      by_cases h2 : k = a
      · subst h2
        simp only [if_pos rfl]
        exact List.Pairwise.cons hhead htail
      · simp only [if_neg h2]
        have hak : keyLt a k = true := keyLt_total (Bool.of_not_eq_true h1) h2
        refine List.Pairwise.cons ?_ (sortedP_insertL rest k v htail)
        intro q hq
        rcases mem_insertL rest k v q hq with h | h
        · subst h; exact hak
        · exact hhead q h

lemma bool_eq_false {b : Bool} (h : ¬ b = true) : b = false := by
  cases b
  · rfl
  · exact absurd rfl h

lemma lookupL_eraseL {α : Type} :
    ∀ (l : List (String × α)) (k k' : String),
      lookupL (eraseL l k) k' = if k' = k then none else lookupL l k'
  | [], k, k' => by simp [eraseL, lookupL]
  | (a, v) :: rest, k, k' => by
    have ih := lookupL_eraseL rest k k'
    by_cases hak : a = k
    · subst hak
      have hdrop : eraseL ((a, v) :: rest) a = eraseL rest a := by
        simp [eraseL, List.filter_cons]
      rw [hdrop, ih]
      by_cases hk : k' = a <;> simp [hk, lookupL]
    · have hkeep : eraseL ((a, v) :: rest) k = (a, v) :: eraseL rest k := by
        simp [eraseL, List.filter_cons, hak]
      rw [hkeep]
      by_cases hk : k' = a
      · subst hk
        have hne : ¬ k' = k := hak
        simp [lookupL, hne]
      · simp [lookupL, hk, ih]

lemma sortedP_eraseL {α : Type} {l : List (String × α)} (k : String)
    (hs : SortedP l) : SortedP (eraseL l k) :=
  hs.filter _

/-- First-match combinator used to state map-union lookups. -/
def optOr {α : Type} : Option α → Option α → Option α
  | some v, _ => some v
  | none, b => b

lemma lookupL_insertAll {α : Type} :
    ∀ (l base : List (String × α)) (k : String),
      List.Pairwise (fun p q => p.1 ≠ q.1) l →
      lookupL (insertAll base l) k = optOr (lookupL l k) (lookupL base k)
  | [], base, k, _ => by simp [insertAll, lookupL, optOr]
  | (a, v) :: rest, base, k, h => by
    rcases List.pairwise_cons.1 h with ⟨hhead, htail⟩
    have ih := lookupL_insertAll rest (insertL base a v) k htail
    show lookupL (insertAll (insertL base a v) rest) k = _
    rw [ih]
    by_cases hk : k = a
    · subst hk
      have hrest : lookupL rest k = none :=
        lookupL_eq_none rest k (fun p hp => hhead p hp)
      simp [hrest, lookupL_insertL, lookupL, optOr]
    · cases hr : lookupL rest k <;> simp [hr, lookupL_insertL, lookupL, hk, optOr]

lemma sortedP_insertAll {α : Type} :
    ∀ (l base : List (String × α)), SortedP base → SortedP (insertAll base l)
  | [], _, hs => hs
  | (a, v) :: rest, base, hs =>
    sortedP_insertAll rest (insertL base a v) (sortedP_insertL base a v hs)

lemma sortedP_lookup_ext {α : Type} :
    ∀ (l l' : List (String × α)), SortedP l → SortedP l' →
      (∀ k, lookupL l k = lookupL l' k) → l = l'
  | [], [], _, _, _ => rfl
  | [], (b, w) :: _, _, _, hl => by
    have h := hl b
    simp [lookupL] at h
  | (a, v) :: _, [], _, _, hl => by
    have h := hl a
    simp [lookupL] at h
  | (a, v) :: t, (b, w) :: t', hs, hs', hl => by
    rcases List.pairwise_cons.1 hs with ⟨hheadA, htailA⟩
    rcases List.pairwise_cons.1 hs' with ⟨hheadB, htailB⟩
    have hab : a = b := by
      by_cases h1 : keyLt a b = true
      · exfalso
        have h2 := hl a
        have hnb : ¬ a = b := keyLt_ne h1
        have hnone : lookupL t' a = none :=
          lookupL_eq_none t' a (fun p hp => keyLt_ne (keyLt_trans h1 (hheadB p hp)))
        simp [lookupL, hnb, hnone] at h2
      · by_cases h3 : keyLt b a = true
        · exfalso
          have h2 := hl b
          have hnb : ¬ b = a := keyLt_ne h3
          have hnone : lookupL t b = none :=
            lookupL_eq_none t b (fun p hp => keyLt_ne (keyLt_trans h3 (hheadA p hp)))
          simp [lookupL, hnb, hnone] at h2
        · exact keyLt_connex (bool_eq_false h1) (bool_eq_false h3)
    subst hab
    have hvw : v = w := by
      have h2 := hl a
      simpa [lookupL] using h2
    subst hvw
    have htails : ∀ k, lookupL t k = lookupL t' k := by
      intro k
      by_cases hk : k = a
      · subst hk
        rw [lookupL_eq_none t k (fun p hp => keyLt_ne (hheadA p hp)),
          lookupL_eq_none t' k (fun p hp => keyLt_ne (hheadB p hp))]
      · have h2 := hl k
        simpa [lookupL, hk] using h2
    rw [sortedP_lookup_ext t t' htailA htailB htails]

/-! ## Lemmas: the columnar codec round trip -/

lemma metric_marshal_sorted (m : Metric) : SortedP m.MarshalJSON := by
  have hbase : SortedP (insertL ([] : List (String × String)) "__name__" m.Name) := by
    simp [insertL, SortedP]
  cases hml : m.Labels with
  | none => simpa [Metric.MarshalJSON, hml, insertAll] using hbase
  | some l =>
    have hdoc : m.MarshalJSON = insertAll (insertL [] "__name__" m.Name) l := by
      simp [Metric.MarshalJSON, hml]
    rw [hdoc]
    exact sortedP_insertAll l _ hbase

lemma metric_roundtrip (m : Metric)
    (hwf : ∀ l, m.Labels = some l → sortedKeys l = true)
    (hname : ∀ l, m.Labels = some l → lookupL l "__name__" = none) :
    Metric.UnmarshalJSON m.MarshalJSON =
      { Name := m.Name, Labels := normalizeLabels m.Labels } := by
  cases hml : m.Labels with
  | none =>
    simp [Metric.MarshalJSON, Metric.UnmarshalJSON, hml, insertAll, insertL, eraseL,
      List.filter_cons, lookupL, normalizeLabels]
  | some l =>
    have hsl : SortedP l := (sortedKeys_iff_pairwise l).1 (hwf l hml)
    have hne : List.Pairwise (fun p q : String × String => p.1 ≠ q.1) l :=
      hsl.imp (fun h => keyLt_ne h)
    have hdoc : m.MarshalJSON = insertAll (insertL [] "__name__" m.Name) l := by
      simp [Metric.MarshalJSON, hml]
    have hlook : ∀ k, lookupL m.MarshalJSON k =
        optOr (lookupL l k) (lookupL (insertL [] "__name__" m.Name) k) := by
      intro k
      rw [hdoc]
      exact lookupL_insertAll l (insertL [] "__name__" m.Name) k hne
    have hlookName : lookupL m.MarshalJSON "__name__" = some m.Name := by
      rw [hlook "__name__", hname l hml]
      simp [lookupL, insertL, optOr]
    have herase : eraseL m.MarshalJSON "__name__" = l := by
      apply sortedP_lookup_ext _ _ (sortedP_eraseL _ (metric_marshal_sorted m)) hsl
      intro k
      rw [lookupL_eraseL]
      by_cases hk : k = "__name__"
      · subst hk
        simp [hname l hml]
      · rw [if_neg hk, hlook k]
        cases hlk : lookupL l k with
        | some v => rfl
        | none => simp [lookupL, insertL, hk, optOr]
    cases l with
    | nil =>
      simp [Metric.UnmarshalJSON, herase, hlookName, hml, normalizeLabels]
    | cons x xs =>
      simp [Metric.UnmarshalJSON, herase, hlookName, hml, normalizeLabels]

lemma zipSamples_roundtrip :
    ∀ samples : List Sample,
      (∀ smp ∈ samples, (1000000 : Int) ∣ smp.Timestamp) →
      zipSamples (samples.map (·.Value)) (samples.map (fun smp => unixMilli smp.Timestamp)) =
        some samples
  | [], _ => rfl
  | smp :: rest, h => by
    have hd : (1000000 : Int) ∣ smp.Timestamp := h smp (List.mem_cons_self _ _)
    have ih := zipSamples_roundtrip rest (fun s hs => h s (List.mem_cons_of_mem _ hs))
    rcases hd with ⟨c, hc⟩
    have hts : timeUnixMilli (unixMilli smp.Timestamp) = smp.Timestamp := by
      rw [hc, unixMilli, timeUnixMilli, Int.mul_fdiv_cancel_left c (by norm_num)]
      ring
    simp [zipSamples, List.map_cons, ih, hts]

/-! ## Claim C1: columnar round trip -/

/-- C1 (as stated, refuted): quantifying over *every* `Series` fails, because
the wire format carries whole milliseconds while `time.Time` carries
nanoseconds.  The series with one sample at 1 ns decodes to a sample at 0 ns:
encoding then decoding does not return the (normalized) original. -/
theorem c1_counterexample :
    (Series.UnmarshalJSON (Series.MarshalJSON ⟨⟨"m", none⟩, [⟨0, 1⟩]⟩) =
      DecodeResult.ok (normalizeSeries ⟨⟨"m", none⟩, [⟨0, 1⟩]⟩)) = False := by
  apply eq_false
  intro h
  have hL : Series.UnmarshalJSON (Series.MarshalJSON ⟨⟨"m", none⟩, [⟨0, 1⟩]⟩) =
      DecodeResult.ok ⟨⟨"m", none⟩, [⟨0, 0⟩]⟩ := rfl
  have hR : normalizeSeries ⟨⟨"m", none⟩, [⟨0, 1⟩]⟩ = ⟨⟨"m", none⟩, [⟨0, 1⟩]⟩ := rfl
  rw [hL, hR] at h
  have h2 := DecodeResult.ok.inj h
  simp [Series.mk.injEq, Sample.mk.injEq] at h2

/-- C1 (amended): for every `Series` whose sample timestamps are whole
milliseconds and whose label mapping (in canonical form) does not bind the
reserved key `__name__`, decoding the encoding yields the original series
with an empty label mapping normalized to nil. -/
theorem c1_roundtrip (s : Series)
    (hts : ∀ smp ∈ s.Samples, (1000000 : Int) ∣ smp.Timestamp)
    (hwf : ∀ l, s.metric.Labels = some l → sortedKeys l = true)
    (hname : ∀ l, s.metric.Labels = some l → lookupL l "__name__" = none) :
    Series.UnmarshalJSON (Series.MarshalJSON s) = .ok (normalizeSeries s) := by
  have hz := zipSamples_roundtrip s.Samples hts
  have hm := metric_roundtrip s.metric hwf hname
  simp [Series.MarshalJSON, Series.UnmarshalJSON, hz, hm, normalizeSeries]

/-- C1 witness: the amended round trip evaluated on a concrete series with a
label map and one whole-millisecond sample. -/
theorem c1_roundtrip_witness :
    Series.UnmarshalJSON
        (Series.MarshalJSON ⟨⟨"vue_kwh", some [("a", "b"), ("c", "d")]⟩, [⟨0, 2000000⟩]⟩) =
      .ok (normalizeSeries ⟨⟨"vue_kwh", some [("a", "b"), ("c", "d")]⟩, [⟨0, 2000000⟩]⟩) :=
  c1_roundtrip ⟨⟨"vue_kwh", some [("a", "b"), ("c", "d")]⟩, [⟨0, 2000000⟩]⟩
    (by intro smp hsmp; simp at hsmp; rw [hsmp]; decide)
    (by intro l hl; rw [← Option.some.inj hl]; decide)
    (by intro l hl; rw [← Option.some.inj hl]; decide)

/-! ## Claim C2: length-mismatch behaviour of `Series.UnmarshalJSON` -/

/-- C2 evidence: on a document whose `values` is longer than `timestamps`
the decoder panics with an index out of range; when `timestamps` is longer
it silently succeeds, dropping the extras.  In neither case is a decode
error returned. -/
theorem c2_evidence :
    Series.UnmarshalJSON ⟨[("__name__", "m")], [1], []⟩ = DecodeResult.panicked ∧
    Series.UnmarshalJSON ⟨[("__name__", "m")], [], [5]⟩ =
      DecodeResult.ok ⟨⟨"m", none⟩, []⟩ ∧
    ∀ (doc : jseries) (msg : String),
      (Series.UnmarshalJSON doc = DecodeResult.error msg) = False := by
  refine ⟨rfl, rfl, ?_⟩
  intro doc msg
  apply eq_false
  intro h
  unfold Series.UnmarshalJSON at h
  cases hz : zipSamples doc.Values doc.Timestamps <;> rw [hz] at h <;> exact DecodeResult.noConfusion h

/-! ## Claim C6: the `__total__` substitution is dead code -/

/-- C6 evidence: for a channel whose display name is empty, the pushed
metric's `name` label is the empty string, not `__total__` — the source
computes the substituted name but never uses it. -/
theorem c6_evidence :
    lookupL ((exportMetric ⟨"", 123, "1,2,3", 1⟩ Scale1Minute).Labels.getD []) "name" =
        some "" ∧
    (lookupL ((exportMetric ⟨"", 123, "1,2,3", 1⟩ Scale1Minute).Labels.getD []) "name" =
        some "__total__") = False := by
  constructor
  · rfl
  · apply eq_false
    intro h
    rw [show lookupL ((exportMetric ⟨"", 123, "1,2,3", 1⟩ Scale1Minute).Labels.getD [])
        "name" = some "" from rfl] at h
    simp at h

/-! ## Claim C7: the scalar decoder's error conditions -/

/-- C7 (as stated, refuted): `strconv.ParseFloat` also accepts the
non-decimal forms `NaN`, signed `Inf`/`Infinity`, hexadecimal floats and
underscore-separated digits, so decoding `[5, "NaN"]` — whose second
element is not a string parseable as a decimal number — succeeds instead of
failing with a decode error. -/
theorem c7_counterexample :
    Sample.UnmarshalJSON [JAny.num 5, JAny.str "NaN"] =
      .okNonFinite (timeUnix (truncInt 5)) .nan ∧
    (∃ msg, Sample.UnmarshalJSON [JAny.num 5, JAny.str "NaN"] =
      ScalarResult.error msg) = False := by
  constructor
  · rfl
  · apply eq_false
    rintro ⟨msg, h⟩
    rw [show Sample.UnmarshalJSON [JAny.num 5, JAny.str "NaN"] =
        .okNonFinite (timeUnix (truncInt 5)) .nan from rfl] at h
    exact ScalarResult.noConfusion h

/-- C7 (amended): the scalar decoder fails with a decode error exactly when
the array length is not 2, or element 0 is not numeric, or element 1 is not
a string accepted by `strconv.ParseFloat` — acceptance covers decimal forms
and also `NaN`, signed `Inf`/`Infinity`, hexadecimal floats and
underscore-separated digits.  When all three conditions hold the decode
succeeds, with the timestamp read as epoch seconds and the parsed float as
the value (a finite parse populates the sample; a non-finite `NaN`/`±Inf`
parse is the `okNonFinite` success). -/
theorem c7_scalar_decode (doc : List JAny) :
    (∀ ts val q, doc = [JAny.num ts, JAny.str val] →
      parseFloat val = some (.finite q) →
      Sample.UnmarshalJSON doc = .ok ⟨q, timeUnix (truncInt ts)⟩) ∧
    (∀ ts val, doc = [JAny.num ts, JAny.str val] → parseFloat val = some .nan →
      Sample.UnmarshalJSON doc = .okNonFinite (timeUnix (truncInt ts)) .nan) ∧
    (∀ ts val b, doc = [JAny.num ts, JAny.str val] →
      parseFloat val = some (.inf b) →
      Sample.UnmarshalJSON doc = .okNonFinite (timeUnix (truncInt ts)) (.inf b)) ∧
    ((¬ ∃ ts val v, doc = [JAny.num ts, JAny.str val] ∧ parseFloat val = some v) →
      ∃ msg, Sample.UnmarshalJSON doc = ScalarResult.error msg) := by
  refine ⟨?_, ?_, ?_, ?_⟩
  · intro ts val q hdoc hp
    subst hdoc
    simp [Sample.UnmarshalJSON, hp]
  · intro ts val hdoc hp
    subst hdoc
    simp [Sample.UnmarshalJSON, hp]
  · intro ts val b hdoc hp
    subst hdoc
    simp [Sample.UnmarshalJSON, hp]
  · intro hnot
    match doc with
    | [] => exact ⟨_, rfl⟩
    | [_] => exact ⟨_, rfl⟩
    | _ :: _ :: _ :: _ => exact ⟨_, rfl⟩
    | [JAny.str _, _] => exact ⟨_, rfl⟩
    | [JAny.other, _] => exact ⟨_, rfl⟩
    | [JAny.num _, JAny.num _] => exact ⟨_, rfl⟩
    | [JAny.num _, JAny.other] => exact ⟨_, rfl⟩
    | [JAny.num ts, JAny.str val] =>
      cases hp : parseFloat val with
      | none =>
        exact ⟨"sample value was not a float", by simp [Sample.UnmarshalJSON, hp]⟩
      | some v => exact absurd ⟨ts, val, v, rfl, hp⟩ hnot

/-- C7 witness: decoding `[3, "2"]` succeeds with value 2, decoding
`[5, "0x1p3"]` succeeds with the hexadecimal value 8, and decoding the
1-element array `[3]` yields an error. -/
theorem c7_scalar_decode_witness :
    Sample.UnmarshalJSON [JAny.num 3, JAny.str "2"] = .ok ⟨2, timeUnix (truncInt 3)⟩ ∧
    Sample.UnmarshalJSON [JAny.num 5, JAny.str "0x1p3"] =
      .ok ⟨8, timeUnix (truncInt 5)⟩ ∧
    ∃ msg, Sample.UnmarshalJSON [JAny.num 3] = ScalarResult.error msg := by
  refine ⟨?_, ?_,
    (c7_scalar_decode [JAny.num 3]).2.2.2 (by rintro ⟨ts, val, v, h, -⟩; simp at h)⟩
  · refine (c7_scalar_decode [JAny.num 3, JAny.str "2"]).1 3 "2" 2 rfl ?_
    have h0 : parseFloat "2" =
        some (.finite (((0 * 10 + digitVal '2' : ℕ) : ℚ) / (10 : ℚ) ^ (0 : ℕ) *
          (10 : ℚ) ^ ((0 : Int)))) := rfl
    have h1 : (0 * 10 + digitVal '2' : ℕ) = 2 := by decide
    rw [h0, h1]
    norm_num
  · refine (c7_scalar_decode [JAny.num 5, JAny.str "0x1p3"]).1 5 "0x1p3" 8 rfl ?_
    have h0 : parseFloat "0x1p3" =
        some (.finite (((0 * 16 + digitVal '1' : ℕ) : ℚ) / (16 : ℚ) ^ (0 : ℕ) *
          (2 : ℚ) ^ (((0 * 10 + ('3'.toNat - 48) : ℕ) : Int)))) := rfl
    have h1 : (0 * 16 + digitVal '1' : ℕ) = 1 := by decide
    have h2 : (0 * 10 + ('3'.toNat - 48) : ℕ) = 3 := by decide
    rw [h0, h1, h2]
    norm_num

/-! ## Claim C4: resume-point resolution -/

/-- Shape analysis of `resolveSince`: the start is returned unchanged, or
the result was a one-series/one-sample vector whose advanced instant lies
strictly after the start and becomes the new start, or the query failed and
the error is propagated. -/
lemma resolveSince_cases (since d : Int) (res : QueryResult) :
    resolveSince since d res = .ok since ∨
    (∃ m smp, res = .vector [⟨m, [smp]⟩] ∧
      since < timeUnix (truncInt smp.Value) + d ∧
      resolveSince since d res = .ok (timeUnix (truncInt smp.Value) + d)) ∨
    (∃ msg, res = .error msg ∧ resolveSince since d res = .error msg) := by
  cases res with
  | scalar s => exact Or.inl rfl
  | error msg => exact Or.inr (Or.inr ⟨msg, rfl, rfl⟩)
  | vector series =>
    match series with
    | [] => exact Or.inl rfl
    | [s0] =>
      rcases hsmp : s0.Samples with _ | ⟨smp, _ | ⟨b, rest⟩⟩
      · left
        simp [resolveSince, hsmp]
      · by_cases hlt : since < timeUnix (truncInt smp.Value) + d
        · right
          left
          refine ⟨s0.metric, smp, ?_, hlt, ?_⟩
          · cases s0 with
            | mk m ss =>
              simp only at hsmp
              rw [hsmp]
          · simp [resolveSince, hsmp, if_pos hlt]
        · left
          simp [resolveSince, hsmp, if_neg hlt]
      · left
        simp [resolveSince, hsmp]
    | a :: b :: rest => exact Or.inl rfl

/-- C4 (as stated, refuted): a `matrix`/`string`/unrecognized result type
does not leave the start unchanged — `Query` returns an error and
`exportHistory` aborts the channel's export instead of resolving a
start. -/
theorem c4_counterexample :
    resolveSince 0 5 (QueryResult.error "result type unsupported") =
      Except.error "result type unsupported" ∧
    (resolveSince 0 5 (QueryResult.error "result type unsupported") =
      Except.ok 0) = False := by
  refine ⟨rfl, eq_false ?_⟩
  intro h
  rw [show resolveSince 0 5 (QueryResult.error "result type unsupported") =
      Except.error "result type unsupported" from rfl] at h
  exact Except.noConfusion h

/-- C4 (amended): whenever resolution returns a start it never moved
backwards; it moves at all only when the query returned exactly one series
with exactly one sample, and then it equals that sample's value read as an
epoch-second instant plus one scale duration and lies strictly after the
original start; any other vector shape and any scalar result return the
start unchanged; a `matrix`/`string`/unrecognized result type makes `Query`
return an error that aborts the channel's export instead of resolving a
start. -/
theorem c4_resume (since d : Int) (res : QueryResult) :
    (∀ t, resolveSince since d res = .ok t → since ≤ t) ∧
    (∀ t, resolveSince since d res = .ok t → t ≠ since →
      ∃ m smp, res = .vector [⟨m, [smp]⟩] ∧
        t = timeUnix (truncInt smp.Value) + d ∧ since < t) ∧
    (∀ series, res = .vector series → (¬ ∃ m smp, series = [⟨m, [smp]⟩]) →
      resolveSince since d res = .ok since) ∧
    (∀ smp, res = .scalar smp → resolveSince since d res = .ok since) ∧
    (∀ msg, res = .error msg → resolveSince since d res = .error msg) := by
  rcases resolveSince_cases since d res with h | ⟨m, smp, hres, hlt, heq⟩ |
    ⟨msg, hres, herr⟩
  · refine ⟨?_, ?_, ?_, ?_, ?_⟩
    · intro t ht
      rw [h] at ht
      exact le_of_eq (Except.ok.inj ht)
    · intro t ht hne
      rw [h] at ht
      exact absurd (Except.ok.inj ht).symm hne
    · intro _ _ _
      exact h
    · intro _ _
      exact h
    · intro msg hmsg
      subst hmsg
      exact absurd h (by simp [resolveSince])
  · refine ⟨?_, ?_, ?_, ?_, ?_⟩
    · intro t ht
      rw [heq] at ht
      have hT := Except.ok.inj ht
      rw [← hT]
      exact le_of_lt hlt
    · intro t ht _
      rw [heq] at ht
      have hT := Except.ok.inj ht
      subst hT
      exact ⟨m, smp, hres, rfl, hlt⟩
    · intro series hser hshape
      rw [hres] at hser
      exact absurd ⟨m, smp, (QueryResult.vector.inj hser).symm⟩ hshape
    · intro s hs
      rw [hs] at hres
      exact QueryResult.noConfusion hres
    · intro msg hmsg
      rw [hmsg] at hres
      exact QueryResult.noConfusion hres
  · refine ⟨?_, ?_, ?_, ?_, ?_⟩
    · intro t ht
      rw [herr] at ht
      exact Except.noConfusion ht
    · intro t ht _
      rw [herr] at ht
      exact Except.noConfusion ht
    · intro series hser _
      rw [hser] at hres
      exact QueryResult.noConfusion hres
    · intro s hs
      rw [hs] at hres
      exact QueryResult.noConfusion hres
    · intro msg2 hmsg
      rw [hmsg] at hres
      have hm := QueryResult.error.inj hres
      rw [herr, hm]

/-- C4 witness: a scalar result resolves to the unchanged start 0; a
matrix-style query error aborts with the error. -/
theorem c4_resume_witness :
    resolveSince 0 5 (.scalar ⟨1, 2⟩) = .ok 0 ∧
    resolveSince 0 5 (QueryResult.error "result type unsupported") =
      Except.error "result type unsupported" :=
  ⟨(c4_resume 0 5 (.scalar ⟨1, 2⟩)).2.2.2.1 ⟨1, 2⟩ rfl,
   (c4_resume 0 5 (QueryResult.error "result type unsupported")).2.2.2.2 _ rfl⟩

/-! ## Claim C9: scale tables and fatal lookups -/

/-- C9: both `Scale.Duration` and `Scale.PageSize` return the table value
whenever the scale is in the table (the failure branch is unreachable
there), and panic — rather than return a recoverable error — on every scale
outside the table, which for durations includes month and year and for page
sizes includes day, week, month and year. -/
theorem c9_scale_tables :
    (∀ s d, lookupL scaleDurations s = some d → Scale.Duration s = .val d) ∧
    (∀ s, lookupL scaleDurations s = none →
      Scale.Duration s = .fatal ("Unknown duration for scale " ++ s)) ∧
    (∀ s p, lookupL scalePageSize s = some p → Scale.PageSize s = .val p) ∧
    (∀ s, lookupL scalePageSize s = none →
      Scale.PageSize s = .fatal ("Unknown scale page size for scale " ++ s)) ∧
    Scale.Duration Scale1Month = .fatal ("Unknown duration for scale " ++ Scale1Month) ∧
    Scale.Duration Sscale1Year = .fatal ("Unknown duration for scale " ++ Sscale1Year) ∧
    Scale.PageSize Scale1Day = .fatal ("Unknown scale page size for scale " ++ Scale1Day) ∧
    Scale.PageSize Scale1Week = .fatal ("Unknown scale page size for scale " ++ Scale1Week) ∧
    Scale.PageSize Scale1Month = .fatal ("Unknown scale page size for scale " ++ Scale1Month) ∧
    Scale.PageSize Sscale1Year = .fatal ("Unknown scale page size for scale " ++ Sscale1Year) := by
  refine ⟨?_, ?_, ?_, ?_, rfl, rfl, rfl, rfl, rfl, rfl⟩
  · intro s d h
    simp [Scale.Duration, h]
  · intro s h
    simp [Scale.Duration, h]
  · intro s p h
    simp [Scale.PageSize, h]
  · intro s h
    simp [Scale.PageSize, h]

/-- C9 witness: the second scale has its one-second duration and its
4000-second page size. -/
theorem c9_scale_tables_witness :
    Scale.Duration Scale1Second = .val 1000000000 ∧
    Scale.PageSize Scale1Second = .val (4000 * 1000000000) :=
  ⟨c9_scale_tables.1 Scale1Second 1000000000 rfl,
   c9_scale_tables.2.2.1 Scale1Second (4000 * 1000000000) rfl⟩

/-! ## Claim C10: the Atom holder -/

/-- C10: `Reset` returns the previously held value, a subsequent `Load`
returns the new value, every watcher registered before the reset is invoked
exactly once with `(old, new)` in registration order, and `Watch` appends
to the registration order (so a watcher registered before a reset is
included in that reset's notification list). -/
theorem c10_atom {W T : Type} (a : Atom W T) (v : T) (f : W) :
    (a.Reset v).1 = a.Load ∧
    ((a.Reset v).2.1).Load = v ∧
    (a.Reset v).2.2 = a.watchers.map (fun w => (w, a.Load, v)) ∧
    (a.Watch f).watchers = a.watchers ++ [f] ∧
    ((a.Watch f).Reset v).2.2 =
      (a.watchers ++ [f]).map (fun w => (w, a.Load, v)) :=
  ⟨rfl, rfl, rfl, rfl, rfl⟩

/-! ## Claim C3: batch flushing -/

lemma exportLoop_sizes (d : Int) :
    ∀ (found : List (Option ℚ)) (start : Int) (buf : List Sample)
      (pushes : List (List Sample)) (c : Nat),
      ((exportLoop d found start buf pushes c).1).map List.length =
        sizeLoop (found.map Option.isSome) buf.length (pushes.map List.length)
  | [], start, buf, pushes, c => by
    by_cases h : buf.length > 0 <;>
      simp [exportLoop, sizeLoop, h, List.map_append]
  | none :: rest, start, buf, pushes, c => by
    have hr : sizeLoop ((none :: rest : List (Option ℚ)).map Option.isSome) buf.length
        (pushes.map List.length) =
        sizeLoop (rest.map Option.isSome) buf.length (pushes.map List.length) := rfl
    rw [hr]
    show ((exportLoop d rest (start + d) buf pushes c).1).map List.length = _
    exact exportLoop_sizes d rest (start + d) buf pushes c
  | some v :: rest, start, buf, pushes, c => by
    have hlen : (buf ++ [({ Value := v, Timestamp := start } : Sample)]).length =
        buf.length + 1 := by simp
    by_cases h : buf.length + 1 > 1000
    · have hl : exportLoop d (some v :: rest) start buf pushes c =
          exportLoop d rest (start + d) []
            (pushes ++ [buf ++ [{ Value := v, Timestamp := start }]]) (c + 1) := by
        simp only [exportLoop, hlen]
        rw [if_pos h]
      have hr : sizeLoop ((some v :: rest : List (Option ℚ)).map Option.isSome) buf.length
          (pushes.map List.length) =
          sizeLoop (rest.map Option.isSome) 0 ((pushes.map List.length) ++ [buf.length + 1]) := by
        simp only [List.map_cons, Option.isSome_some, sizeLoop, if_pos h]
        rfl
      rw [hl, hr, exportLoop_sizes d rest (start + d) _ _ (c + 1)]
      simp [hlen]
    · have hl : exportLoop d (some v :: rest) start buf pushes c =
          exportLoop d rest (start + d) (buf ++ [{ Value := v, Timestamp := start }])
            pushes (c + 1) := by
        simp only [exportLoop, hlen]
        rw [if_neg h]
      have hr : sizeLoop ((some v :: rest : List (Option ℚ)).map Option.isSome) buf.length
          (pushes.map List.length) =
          sizeLoop (rest.map Option.isSome) (buf.length + 1) (pushes.map List.length) := by
        simp only [List.map_cons, Option.isSome_some, sizeLoop, if_neg h]
        rfl
      rw [hl, hr, exportLoop_sizes d rest (start + d) _ _ (c + 1), hlen]

lemma sizeLoop_all_bounds :
    ∀ (l : List Bool) (k : Nat) (acc : List Nat), k ≤ 1000 → (∀ x ∈ acc, x = 1001) →
      (∀ x ∈ (sizeLoop l k acc).dropLast, x = 1001) ∧
      (∀ x ∈ sizeLoop l k acc, 1 ≤ x ∧ x ≤ 1001)
  | [], k, acc, hk, hacc => by
    by_cases h : k > 0
    · constructor
      · intro x hx
        simp only [sizeLoop, if_pos h] at hx
        rw [List.dropLast_concat] at hx
        exact hacc x hx
      · intro x hx
        simp only [sizeLoop, if_pos h] at hx
        rcases List.mem_append.1 hx with h' | h'
        · have := hacc x h'
          omega
        · simp at h'
          omega
    · constructor
      · intro x hx
        simp only [sizeLoop, if_neg h] at hx
        have := hacc x (List.dropLast_subset _ hx)
        omega
      · intro x hx
        simp only [sizeLoop, if_neg h] at hx
        have := hacc x hx
        omega
  | b :: rest, k, acc, hk, hacc => by
    cases b
    · have hr : sizeLoop (false :: rest) k acc = sizeLoop rest k acc := rfl
      rw [hr]
      exact sizeLoop_all_bounds rest k acc hk hacc
    · by_cases h : k + 1 > 1000
      · have hr : sizeLoop (true :: rest) k acc = sizeLoop rest 0 (acc ++ [k + 1]) := by
          simp [sizeLoop, h]
        have hk1 : k + 1 = 1001 := by omega
        rw [hr, hk1]
        refine sizeLoop_all_bounds rest 0 (acc ++ [1001]) (by omega) ?_
        intro x hx
        rcases List.mem_append.1 hx with h' | h'
        · exact hacc x h'
        · simpa using h'
      · have hr : sizeLoop (true :: rest) k acc = sizeLoop rest (k + 1) acc := by
          simp [sizeLoop, h]
        rw [hr]
        exact sizeLoop_all_bounds rest (k + 1) acc (by omega) hacc

lemma sizeLoop_sum :
    ∀ (l : List Bool) (k : Nat) (acc : List Nat),
      (sizeLoop l k acc).sum = acc.sum + k + l.count true
  | [], k, acc => by
    by_cases h : k > 0
    · simp only [sizeLoop, if_pos h, List.sum_append, List.sum_cons, List.sum_nil,
        List.count_nil]
      omega
    · simp only [sizeLoop, if_neg h, List.count_nil]
      omega
  | b :: rest, k, acc => by
    cases b
    · have hr : sizeLoop (false :: rest) k acc = sizeLoop rest k acc := rfl
      rw [hr, sizeLoop_sum rest k acc]
      simp [List.count_cons]
    · by_cases h : k + 1 > 1000
      · have hr : sizeLoop (true :: rest) k acc = sizeLoop rest 0 (acc ++ [k + 1]) := by
          simp [sizeLoop, h]
        rw [hr, sizeLoop_sum rest 0 (acc ++ [k + 1])]
        simp [List.sum_append, List.count_cons]
        omega
      · have hr : sizeLoop (true :: rest) k acc = sizeLoop rest (k + 1) acc := by
          simp [sizeLoop, h]
        rw [hr, sizeLoop_sum rest (k + 1) acc]
        simp [List.count_cons]
        omega

set_option maxRecDepth 40000 in
/-- C3 (as stated, refuted): the loop flushes when the buffer *exceeds*
1000 entries, i.e. at 1001, so 2500 samples produce batches of
1001/1001/498, not 1000/1000/500. -/
theorem c3_counterexample :
    (flushSizes (60 * 1000000000) (List.replicate 2500 (some 1)) 0 =
      [1000, 1000, 500]) = False := by
  have h : flushSizes (60 * 1000000000) (List.replicate 2500 (some 1)) 0 =
      sizeLoop (List.replicate 2500 true) 0 [] := by
    rw [flushSizes, exportLoop_sizes]
    simp only [List.map_replicate, Option.isSome_some, List.length_nil, List.map_nil]
  have h2 : sizeLoop (List.replicate 2500 true) 0 [] = [1001, 1001, 498] := by decide
  apply eq_false
  intro hclaim
  rw [h, h2] at hclaim
  simp at hclaim

set_option maxRecDepth 40000 in
/-- C3 (amended): exporting 2500 buffered samples yields exactly 3 pushes
carrying 1001, 1001 and 498 samples; in general every push before the last
carries exactly 1001 samples (the flush fires as soon as the buffered count
exceeds 1000), every push is non-empty and carries at most 1001 samples,
and the pushed sizes sum to the number of non-nil slots (the final flush
pushes any non-empty remainder). -/
theorem c3_batching :
    flushSizes (60 * 1000000000) (List.replicate 2500 (some 1)) 0 = [1001, 1001, 498] ∧
    ∀ (d : Int) (found : List (Option ℚ)) (since : Int),
      (∀ x ∈ (flushSizes d found since).dropLast, x = 1001) ∧
      (∀ x ∈ flushSizes d found since, 1 ≤ x ∧ x ≤ 1001) ∧
      (flushSizes d found since).sum = (found.map Option.isSome).count true := by
  constructor
  · have h : flushSizes (60 * 1000000000) (List.replicate 2500 (some 1)) 0 =
        sizeLoop (List.replicate 2500 true) 0 [] := by
      rw [flushSizes, exportLoop_sizes]
      simp only [List.map_replicate, Option.isSome_some, List.length_nil, List.map_nil]
    rw [h]
    decide
  · intro d found since
    have h : flushSizes d found since = sizeLoop (found.map Option.isSome) 0 [] := by
      rw [flushSizes, exportLoop_sizes]
      rfl
    obtain ⟨h1, h2⟩ :=
      sizeLoop_all_bounds (found.map Option.isSome) 0 [] (by omega) (by intro x hx; simp at hx)
    refine ⟨?_, ?_, ?_⟩
    · rw [h]
      exact h1
    · rw [h]
      exact h2
    · rw [h, sizeLoop_sum]
      simp

/-- C3 witness: the amended general batching facts evaluated on a one-slot
input. -/
theorem c3_batching_witness :
    (flushSizes 0 [some 1] 0).sum = (([some 1] : List (Option ℚ)).map Option.isSome).count true :=
  (c3_batching.2 0 [some 1] 0).2.2

/-! ## Claims C5 and C8: the paginator -/

lemma pagesF_self (P : Int) : ∀ (fuel : Nat) (e : Int), pagesF P fuel e e = []
  | 0, _ => rfl
  | _ + 1, _ => by simp [pagesF]

lemma GetHistoryF_spec (page : PageFn) (P : Int) (hP : 0 < P) :
    ∀ (fuel : Nat) (start end_ : Int), start ≤ end_ → (end_ - start).toNat ≤ fuel →
      ∀ (inst : Option Int) (samples : List (Option ℚ)) (reqs : List (Int × Int)),
        GetHistoryF page P fuel start end_ inst samples reqs =
          some ((if inst.isNone then
                  List.findSome? id (pageAnchors page (pagesF P fuel start end_))
                else inst),
            samples ++ pageSamples page (pagesF P fuel start end_),
            reqs ++ pagesF P fuel start end_) := by
  intro fuel
  induction fuel with
  | zero =>
    intro start end_ hse hfuel inst samples reqs
    have heq : start = end_ := by omega
    subst heq
    cases inst <;> simp [GetHistoryF, pagesF, pageSamples, pageAnchors]
  | succ f ih =>
    intro start end_ hse hfuel inst samples reqs
    by_cases heq : start = end_
    · subst heq
      cases inst <;> simp [GetHistoryF, pagesF, pageSamples, pageAnchors]
    · have hpe2 : (if end_ > start + P then start + P else end_) ≤ end_ := by
        split <;> omega
      have hfuel' : (end_ - (if end_ > start + P then start + P else end_)).toNat ≤ f := by
        split <;> omega
      have hunf : GetHistoryF page P (f + 1) start end_ inst samples reqs =
          GetHistoryF page P f (if end_ > start + P then start + P else end_) end_
            (if inst.isNone
              then (page start (if end_ > start + P then start + P else end_)).1 else inst)
            (samples ++ (page start (if end_ > start + P then start + P else end_)).2)
            (reqs ++ [(start, if end_ > start + P then start + P else end_)]) := by
        simp only [GetHistoryF, if_neg heq]
      have hpages : pagesF P (f + 1) start end_ =
          (start, if end_ > start + P then start + P else end_) ::
            pagesF P f (if end_ > start + P then start + P else end_) end_ := by
        simp only [pagesF, if_neg heq]
      rw [hunf, ih (if end_ > start + P then start + P else end_) end_ hpe2 hfuel', hpages]
      cases inst with
      | some t => simp [pageSamples, pageAnchors]
      | none =>
        cases hpa : (page start (if end_ > start + P then start + P else end_)).1 with
        | some a2 => simp [pageSamples, pageAnchors, hpa]
        | none => simp [pageSamples, pageAnchors, hpa]

lemma pagesF_length (P : Int) (hP : 0 < P) :
    ∀ (fuel : Nat) (start end_ : Int), start ≤ end_ → (end_ - start).toNat ≤ fuel →
      (pagesF P fuel start end_).length =
        ((end_ - start).toNat + P.toNat - 1) / P.toNat := by
  intro fuel
  induction fuel with
  | zero =>
    intro start end_ hse hfuel
    have heq : start = end_ := by omega
    subst heq
    simp only [pagesF, List.length_nil, Int.sub_self, Int.toNat_zero, Nat.zero_add]
    exact (Nat.div_eq_of_lt (by omega)).symm
  | succ f ih =>
    intro start end_ hse hfuel
    by_cases heq : start = end_
    · subst heq
      simp only [pagesF, if_pos rfl, List.length_nil, Int.sub_self, Int.toNat_zero,
        Nat.zero_add]
      exact (Nat.div_eq_of_lt (by omega)).symm
    · by_cases hcase : end_ > start + P
      · have hpages : pagesF P (f + 1) start end_ =
            (start, start + P) :: pagesF P f (start + P) end_ := by
          simp only [pagesF, if_neg heq, if_pos hcase]
        rw [hpages, List.length_cons, ih (start + P) end_ (by omega) (by omega)]
        have hLN : (end_ - start).toNat = (end_ - (start + P)).toNat + P.toNat := by omega
        rw [hLN]
        have hshift : (end_ - (start + P)).toNat + P.toNat + P.toNat - 1 =
            ((end_ - (start + P)).toNat + P.toNat - 1) + P.toNat := by omega
        rw [hshift, Nat.add_div_right _ (by omega)]
      · have hpages : pagesF P (f + 1) start end_ =
            (start, end_) :: pagesF P f end_ end_ := by
          simp only [pagesF, if_neg heq, if_neg hcase]
        rw [hpages, pagesF_self, List.length_cons, List.length_nil]
        exact (Nat.div_eq_of_lt_le (by omega) (by omega)).symm

lemma pagesF_spans (P : Int) :
    ∀ (fuel : Nat) (start end_ : Int), start ≤ end_ →
      ∀ r ∈ pagesF P fuel start end_, r.2 - r.1 = min (end_ - r.1) P := by
  intro fuel
  induction fuel with
  | zero =>
    intro start end_ _ r hr
    simp [pagesF] at hr
  | succ f ih =>
    intro start end_ hse r hr
    by_cases heq : start = end_
    · subst heq
      simp [pagesF] at hr
    · by_cases hcase : end_ > start + P
      · rw [show pagesF P (f + 1) start end_ =
            (start, start + P) :: pagesF P f (start + P) end_ from by
          simp only [pagesF, if_neg heq, if_pos hcase]] at hr
        rcases List.mem_cons.1 hr with h | h
        · subst h
          simp only
          omega
        · exact ih (start + P) end_ (by omega) r h
      · rw [show pagesF P (f + 1) start end_ =
            (start, end_) :: pagesF P f end_ end_ from by
          simp only [pagesF, if_neg heq, if_neg hcase]] at hr
        rw [pagesF_self] at hr
        rcases List.mem_cons.1 hr with h | h
        · subst h
          simp only
          omega
        · simp at h

lemma pagesF_chained (P : Int) (hP : 0 < P) :
    ∀ (fuel : Nat) (start end_ : Int), start ≤ end_ → (end_ - start).toNat ≤ fuel →
      Chained start end_ (pagesF P fuel start end_) := by
  intro fuel
  induction fuel with
  | zero =>
    intro start end_ hse hfuel
    have heq : start = end_ := by omega
    subst heq
    simp [pagesF, Chained]
  | succ f ih =>
    intro start end_ hse hfuel
    by_cases heq : start = end_
    · subst heq
      simp [pagesF, Chained]
    · by_cases hcase : end_ > start + P
      · rw [show pagesF P (f + 1) start end_ =
            (start, start + P) :: pagesF P f (start + P) end_ from by
          simp only [pagesF, if_neg heq, if_pos hcase]]
        exact ⟨rfl, ih (start + P) end_ (by omega) (by omega)⟩
      · rw [show pagesF P (f + 1) start end_ =
            (start, end_) :: pagesF P f end_ end_ from by
          simp only [pagesF, if_neg heq, if_neg hcase]]
        rw [pagesF_self]
        exact ⟨rfl, rfl⟩

lemma pagesF_slots (page : PageFn) (P d : Int) (hP : 0 < P) (hd : 0 < d) (hdP : d ∣ P)
    (hpage : ∀ s e, s ≤ e → ((page s e).2).length = (e - s).toNat / d.toNat) :
    ∀ (fuel : Nat) (start end_ : Int), start ≤ end_ → (end_ - start).toNat ≤ fuel →
      (pageSamples page (pagesF P fuel start end_)).length =
        (end_ - start).toNat / d.toNat := by
  have hdvd : d.toNat ∣ P.toNat := by
    rcases hdP with ⟨c, hc⟩
    refine Int.natCast_dvd_natCast.mp ?_
    rw [Int.toNat_of_nonneg (by omega), Int.toNat_of_nonneg (by omega)]
    exact ⟨c, hc⟩
  intro fuel
  induction fuel with
  | zero =>
    intro start end_ hse hfuel
    have heq : start = end_ := by omega
    subst heq
    simp [pagesF, pageSamples]
  | succ f ih =>
    intro start end_ hse hfuel
    by_cases heq : start = end_
    · subst heq
      simp [pagesF, pageSamples]
    · by_cases hcase : end_ > start + P
      · rw [show pagesF P (f + 1) start end_ =
            (start, start + P) :: pagesF P f (start + P) end_ from by
          simp only [pagesF, if_neg heq, if_pos hcase]]
        have hlen := hpage start (start + P) (by omega)
        have hP' : (start + P - start) = P := by ring
        rw [hP'] at hlen
        have hsplit : (end_ - start).toNat = P.toNat + (end_ - (start + P)).toNat := by
          omega
        simp only [pageSamples, List.map_cons, List.flatten_cons, List.length_append]
        rw [show ((pagesF P f (start + P) end_).map
              (fun r => (page r.1 r.2).2)).flatten = pageSamples page (pagesF P f (start + P) end_)
            from rfl]
        rw [hlen, ih (start + P) end_ (by omega) (by omega), hsplit,
          Nat.add_div_of_dvd_right hdvd]
      · rw [show pagesF P (f + 1) start end_ =
            (start, end_) :: pagesF P f end_ end_ from by
          simp only [pagesF, if_neg heq, if_neg hcase]]
        rw [pagesF_self]
        simp only [pageSamples, List.map_cons, List.map_nil, List.flatten_cons,
          List.flatten_nil, List.append_nil]
        exact hpage start end_ hse

/-- C5: over `[start, end)` with positive page size `P` divisible by the
slot duration `d`, and an upstream page call returning one slot per `d` of
its span, `GetHistory` terminates, issues exactly `⌈(end-start)/P⌉`
requests whose windows each span the smaller of the remaining interval and
`P` and tile the interval contiguously (the cursor advances to each page's
end and finishes at `end`), and returns the pages' slot arrays concatenated
in request order, for a total of `(end-start)/d` slots with nil slots
preserved positionally. -/
theorem c5_pagination (page : PageFn) (P d start end_ : Int)
    (hP : 0 < P) (hse : start ≤ end_) (hd : 0 < d) (hdP : d ∣ P)
    (hpage : ∀ s e, s ≤ e → ((page s e).2).length = (e - s).toNat / d.toNat) :
    GetHistory page P start end_ =
      some (List.findSome? id (pageAnchors page (pages P start end_)),
        pageSamples page (pages P start end_),
        pages P start end_) ∧
    (pages P start end_).length = ((end_ - start).toNat + P.toNat - 1) / P.toNat ∧
    (∀ r ∈ pages P start end_, r.2 - r.1 = min (end_ - r.1) P) ∧
    Chained start end_ (pages P start end_) ∧
    (pageSamples page (pages P start end_)).length = (end_ - start).toNat / d.toNat := by
  refine ⟨?_, ?_, ?_, ?_, ?_⟩
  · rw [GetHistory, GetHistoryF_spec page P hP _ start end_ hse (le_refl _)]
    simp [pages]
  · exact pagesF_length P hP _ start end_ hse (le_refl _)
  · exact pagesF_spans P _ start end_ hse
  · exact pagesF_chained P hP _ start end_ hse (le_refl _)
  · exact pagesF_slots page P d hP hd hdP hpage _ start end_ hse (le_refl _)

/-- C5 witness: a 3-unit interval with page size 2 and duration 1 under an
oracle returning one nil slot per unit: two page requests and three slots. -/
theorem c5_pagination_witness :
    (pages 2 0 3).length = (((3 : Int) - 0).toNat + (2 : Int).toNat - 1) / (2 : Int).toNat ∧
    (pageSamples (fun s e => (none, List.replicate (e - s).toNat none))
        (pages 2 0 3)).length = ((3 : Int) - 0).toNat / (1 : Int).toNat := by
  have h := c5_pagination (fun s e => (none, List.replicate (e - s).toNat none))
    2 1 0 3 (by decide) (by decide) (by decide) (by decide)
    (by intro s e _; simp)
  exact ⟨h.2.1, h.2.2.2.2⟩

/-- C8 (as stated, refuted): `GetHistory` keeps the first *non-zero*
anchor, not the first page's anchor.  With a first page reporting the zero
instant and a second page reporting instant 7, the overall result is 7,
which is not what the first page reported. -/
theorem c8_counterexample :
    GetHistory
        (fun s _ => (if s = 0 then (none : Option Int) else some 7, ([] : List (Option ℚ))))
        10 0 20 =
      some (some 7, [], [(0, 10), (10, 20)]) ∧
    ((fun (s : Int) (_ : Int) =>
        (if s = 0 then (none : Option Int) else some 7, ([] : List (Option ℚ)))) 0 10).1 =
      none ∧
    ((some 7 : Option Int) = none) = False := by
  refine ⟨by decide, rfl, eq_false (by simp)⟩

/-- C8 (amended): the first-sample instant `GetHistory` returns is the
first non-zero instant among the pages' reported anchors in request order
(zero when all anchors are zero); in particular it is the first page's
anchor whenever that anchor is non-zero.  Later pages' anchors are
discarded whenever an earlier page reported a non-zero anchor. -/
theorem c8_first_anchor (page : PageFn) (P start end_ : Int)
    (hP : 0 < P) (hse : start ≤ end_) :
    GetHistory page P start end_ =
      some (List.findSome? id (pageAnchors page (pages P start end_)),
        pageSamples page (pages P start end_), pages P start end_) ∧
    (∀ a anchors, pageAnchors page (pages P start end_) = some a :: anchors →
      GetHistory page P start end_ =
        some (some a, pageSamples page (pages P start end_), pages P start end_)) := by
  have h : GetHistory page P start end_ =
      some (List.findSome? id (pageAnchors page (pages P start end_)),
        pageSamples page (pages P start end_), pages P start end_) := by
    rw [GetHistory, GetHistoryF_spec page P hP _ start end_ hse (le_refl _)]
    simp [pages]
  refine ⟨h, ?_⟩
  intro a anchors hanch
  rw [h, hanch]
  simp

/-- C8 witness: with every page reporting anchor 5, the paginator returns
anchor 5 (the first page's). -/
theorem c8_first_anchor_witness :
    GetHistory (fun _ _ => (some 5, ([] : List (Option ℚ)))) 10 0 20 =
      some (some 5,
        pageSamples (fun _ _ => (some 5, ([] : List (Option ℚ)))) (pages 10 0 20),
        pages 10 0 20) :=
  (c8_first_anchor (fun _ _ => (some 5, ([] : List (Option ℚ)))) 10 0 20
      (by decide) (by decide)).2 5 [some 5] (by decide)
